import Mathlib

/-!
Verification development for the insider-news extraction pipeline
(`src/fetch_insider_news.py`).

Strings are modelled as `List Char` (`Str`).  Pure helpers of the source are
translated directly; the regex-based extractors are modelled through a small
backtracking regular-expression engine whose semantics follows Python's `re`
module (leftmost match, ordered alternation, greedy/lazy quantifiers,
case-insensitive character classes, word boundaries), with the source's
patterns transliterated into the engine's syntax tree.  Effectful parts
(network fetch, PDF-to-text conversion, the CSV table) appear as explicit
parameters: per-attachment outcomes, a candidate list, and a list of
previously persisted rows.
-/

abbrev Str := List Char

/-- Characters of a Lean string literal, used to write concrete inputs. -/
def cs (s : String) : Str := s.data

/-- Whitespace as matched by a regex `\s` class (space, tab, newline,
carriage return, vertical tab, form feed). -/
def isWsC (c : Char) : Bool :=
  c == ' ' || c == '\t' || c == '\n' || c == '\r' || c == '\x0b' || c == '\x0c'

/-- Lower-casing covering ASCII plus the Norwegian letters appearing in the
source's character classes. -/
def lowerC (c : Char) : Char :=
  if c == 'Æ' then 'æ' else if c == 'Ø' then 'ø' else if c == 'Å' then 'å'
  else c.toLower

/-- Upper-casing (ASCII), used for `str.upper()` on currency/ticker codes. -/
def upperC (c : Char) : Char := c.toUpper

/-- Python's `str.strip()` on the left: drop leading whitespace. -/
def dropLead (l : Str) : Str := l.dropWhile isWsC

/-- Python's `str.strip()` on the right: drop trailing whitespace. -/
def dropTrail (l : Str) : Str := (l.reverse.dropWhile isWsC).reverse

/-- Python's `str.strip()`. -/
def pyStrip (l : Str) : Str := dropTrail (dropLead l)

/-- One pass of `re.sub(r"\s+", " ", ...)`: every maximal run of whitespace
becomes a single space.  The flag records whether the previous character was
part of a whitespace run. -/
def collapseWs : Bool → Str → Str
  | _, [] => []
  | prev, c :: rest =>
    if isWsC c then
      if prev then collapseWs true rest else ' ' :: collapseWs true rest
    else c :: collapseWs false rest

/-- Function `clean` from the source: `re.sub(r"\s+", " ", (s or "").strip())`. -/
def clean (s : Str) : Str := collapseWs false (pyStrip s)

/-- Function `_to_intish` from the source: remove spaces, remove commas, then strip
every non-digit character. -/
def _to_intish (x : Str) : Str :=
  (((x.filter (fun c => !(c == ' '))).filter (fun c => !(c == ','))).filter
    Char.isDigit)

/-- Rule of `_to_decimalish` for more than one embedded period: Python's
`"".join(parts[:-1]) + "." + parts[-1]`, i.e. keep only the last period. -/
def keepLastDot (s : Str) : Str :=
  let parts := s.splitOn '.'
  (parts.dropLast.foldr (· ++ ·) []) ++ '.' :: parts.getLastD []

/-- Line `s = x.replace(" ", "")` of `_to_decimalish`. -/
def decSpaceless (x : Str) : Str := x.filter (fun c => !(c == ' '))

/-- The comma/period policy lines of `_to_decimalish`: with both present,
remove commas; otherwise turn commas into periods. -/
def decSeparators (s : Str) : Str :=
  if ',' ∈ s ∧ '.' ∈ s then s.filter (fun c => !(c == ','))
  else s.map (fun c => if c == ',' then '.' else c)

/-- Line `s = re.sub(r"[^\d.]", "", s)` of `_to_decimalish`. -/
def decKeep (s : Str) : Str := s.filter (fun c => c.isDigit || c == '.')

/-- The final multiple-period rule of `_to_decimalish`. -/
def decFinal (s : Str) : Str :=
  if 1 < s.count '.' then keepLastDot s else s

/-- Function `_to_decimalish` from the source. -/
def _to_decimalish (x : Str) : Str :=
  if x = [] then [] else decFinal (decKeep (decSeparators (decSpaceless x)))

example : _to_decimalish (cs "1 403 497,855") = cs "1403497.855" := by decide
example : _to_decimalish (cs "288,845") = cs "288.845" := by decide
example : _to_intish (cs "4,859") = cs "4859" := by decide
example : _to_decimalish (cs "1,403,497.855") = cs "1403497.855" := by decide
example : _to_decimalish (cs "1.2.3") = cs "12.3" := by decide

/-!
Section: A regular-expression engine with Python `re` semantics

Backtracking matcher in continuation-passing style.  Alternation is ordered
(left first), quantifiers are greedy or lazy, matching is leftmost-first.
Quantifiers other than `?` occur in the source's patterns only over single
character classes, so `rep` repeats a character predicate; `opt` wraps an
arbitrary subexpression.  Word boundaries (`\b`) inspect the characters on
both sides of the current position.
-/

inductive RE where
  | eps
  | cls (p : Char → Bool)
  | seq2 (a b : RE)
  | alt (a b : RE)
  | opt (a : RE) (lazy : Bool)
  | rep (p : Char → Bool) (lo : Nat) (hi : Option Nat) (lazy : Bool)
  | grp (i : Nat) (a : RE)
  | wb

/-- Capture list: `(group index, start, end)`, most recent first. -/
abbrev Caps := List (Nat × Nat × Nat)

/-- Is the character at index `i` a word character (`\w`)?  Out-of-range
counts as non-word.  Word characters: ASCII alphanumerics, underscore, and
the Norwegian letters (Python treats them as word characters). -/
def wordAt (input : Str) (i : Nat) : Bool :=
  match input[i]? with
  | some c => c.isAlphanum || c == '_' || (cs "ÆØÅæøå").contains c
  | none => false

/-- Assertion `\b` holds at `pos` when exactly one side is a word character. -/
def wordBoundaryAt (input : Str) (pos : Nat) : Bool :=
  (if pos = 0 then false else wordAt input (pos - 1)) != wordAt input pos

/-- Length of the maximal run of characters satisfying `p`. -/
def runLenAux (p : Char → Bool) : Str → Nat
  | [] => 0
  | c :: rest => if p c then runLenAux p rest + 1 else 0

/-- Length of the maximal run of `p`-characters starting at `pos`. -/
def runLen (input : Str) (p : Char → Bool) (pos : Nat) : Nat :=
  runLenAux p (input.drop pos)

/-- The backtracking matcher.  `matchRE input re pos caps k` tries to match
`re` at `pos`; on success it calls the continuation `k` with the end
position and updated captures, and backtracks (tries the next possibility)
whenever `k` returns `none`. -/
def matchRE (input : Str) : RE → Nat → Caps →
    (Nat → Caps → Option (Nat × Caps)) → Option (Nat × Caps)
  | .eps, pos, caps, k => k pos caps
  | .cls p, pos, caps, k =>
    match input[pos]? with
    | some c => if p c then k (pos + 1) caps else none
    | none => none
  | .seq2 a b, pos, caps, k =>
    matchRE input a pos caps (fun p2 c2 => matchRE input b p2 c2 k)
  | .alt a b, pos, caps, k =>
    match matchRE input a pos caps k with
    | some r => some r
    | none => matchRE input b pos caps k
  | .opt a lz, pos, caps, k =>
    if lz then
      match k pos caps with
      | some r => some r
      | none => matchRE input a pos caps k
    else
      match matchRE input a pos caps k with
      | some r => some r
      | none => k pos caps
  | .rep p lo hi lz, pos, caps, k =>
    let avail := runLen input p pos
    let maxN := match hi with | some h => min avail h | none => avail
    if maxN < lo then none
    else
      let count := maxN - lo + 1
      let js := if lz then (List.range count).map (lo + ·)
                else (List.range count).map (fun j => maxN - j)
      js.findSome? (fun j => k (pos + j) caps)
  | .grp i a, pos, caps, k =>
    matchRE input a pos caps (fun e c2 => k e ((i, pos, e) :: c2))
  | .wb, pos, caps, k =>
    if wordBoundaryAt input pos then k pos caps else none

/-- Try to match `re` anchored at `pos`; returns end position and captures. -/
def matchAt (re : RE) (input : Str) (pos : Nat) : Option (Nat × Caps) :=
  matchRE input re pos [] (fun e caps => some (e, caps))

/-- Model of `re.search` starting at `start`: the leftmost position with a match. -/
def searchFrom (re : RE) (input : Str) (start : Nat) :
    Option (Nat × Nat × Caps) :=
  (List.range (input.length + 1 - start)).findSome? (fun d =>
    (matchAt re input (start + d)).map (fun r => (start + d, r.1, r.2)))

/-- Model of `re.search`. -/
def reSearch (re : RE) (input : Str) : Option (Nat × Nat × Caps) :=
  searchFrom re input 0

/-- Model of `re.finditer`: non-overlapping leftmost matches, scanning left to
right; an empty match advances the scan position by one. -/
def finditerAux (re : RE) (input : Str) : Nat → Nat → List (Nat × Nat × Caps)
  | 0, _ => []
  | fuel + 1, pos =>
    match searchFrom re input pos with
    | none => []
    | some (s, e, caps) =>
      (s, e, caps) :: finditerAux re input fuel (if s < e then e else e + 1)

/-- Model of `re.finditer` over the whole input. -/
def finditer (re : RE) (input : Str) : List (Nat × Nat × Caps) :=
  finditerAux re input (input.length + 2) 0

/-- Model of `m.group(i)` as a string, with a missing group giving `""` (the source
always post-processes `None` groups with `or ""`). -/
def groupStr (input : Str) (caps : Caps) (i : Nat) : Str :=
  match caps.find? (fun e => e.1 = i) with
  | some e => (input.drop e.2.1).take (e.2.2 - e.2.1)
  | none => []

/-- Sequence a list of regex parts. -/
def reSeq (l : List RE) : RE := l.foldr RE.seq2 RE.eps

/-- A case-insensitive literal (each character compared lower-cased). -/
def litCI (s : String) : RE :=
  reSeq (s.data.map (fun a => RE.cls (fun c => lowerC c == lowerC a)))

/-- A case-sensitive literal. -/
def litCS (s : String) : RE :=
  reSeq (s.data.map (fun a => RE.cls (fun c => c == a)))

/-- Pattern `\s+`. -/
def wsP : RE := RE.rep isWsC 1 none false

/-- Pattern `\s*`. -/
def wsS : RE := RE.rep isWsC 0 none false

/-!
Section: Character classes of the source's patterns

All free-text patterns are compiled with `re.IGNORECASE`, so letter ranges
in classes match both cases.
-/

/-- Class `[A-ZÆØÅ]` under `re.IGNORECASE`. -/
def nameStartCls (c : Char) : Bool := c.isAlpha || (cs "ÆØÅæøå").contains c

/-- Class `[A-Za-zÆØÅæøå\-\.\s]`. -/
def nameRestCls (c : Char) : Bool :=
  c.isAlpha || (cs "ÆØÅæøå").contains c || c == '-' || c == '.' || isWsC c

/-- Class `[^.]` (also matches newline). -/
def notDotCls (c : Char) : Bool := !(c == '.')

/-- Class `[\d\.,\s]`. -/
def numCls (c : Char) : Bool := c.isDigit || c == '.' || c == ',' || isWsC c

/-- Pattern `.` without `re.DOTALL`: any character but newline. -/
def notNlCls (c : Char) : Bool := !(c == '\n')

/-- Pattern `.` with `re.DOTALL`. -/
def anyCls (_ : Char) : Bool := true

/-- Class `[.,]`. -/
def dotCommaCls (c : Char) : Bool := c == '.' || c == ','

/-- Class `[A-Za-z0-9\-\/\s]` (alphanumeric, hyphen, slash, whitespace). -/
def roleCls (c : Char) : Bool := c.isAlphanum || c == '-' || c == '/' || isWsC c

/-- Class `[A-Za-z0-9 .,&\-]`. -/
def issuerCls (c : Char) : Bool :=
  c.isAlphanum || c == ' ' || c == '.' || c == ',' || c == '&' || c == '-'

/-- Class `[A-Za-z ]`. -/
def alphaSpaceCls (c : Char) : Bool := c.isAlpha || c == ' '

/-!
Section: Free-text trade extractor (`extract_trades_from_text`)

The sentence pattern, transliterated with group numbers
name=1, role=2, tradedate=3, verb=4, shares=5, ccy=6, price=7:

  (?P<name>[A-ZÆØÅ][A-Za-zÆØÅæøå\-\.\s]+?),\s*
  (?P<role>[^.]{3,200}?)\s*,?\s*
  (?:has\s+on\s+(?P<tradedate>\d{1,2}\s+[A-Za-z]+\s+\d{4})\s+)?
  (?P<verb>bought|purchased|acquired|sold)\s+
  (?P<shares>[\d\.,\s]+)\s*shares\b
  (?:.*?\bshare\s+price\s+(?:of\s+)?(?P<ccy>[A-Z]{3})\s*(?P<price>[\d]+(?:[.,]\d+)?))?
-/

def freeTextPat : RE := reSeq [
  RE.grp 1 (reSeq [RE.cls nameStartCls, RE.rep nameRestCls 1 none true]),
  RE.cls (fun c => c == ','), wsS,
  RE.grp 2 (RE.rep notDotCls 3 (some 200) true),
  wsS, RE.opt (RE.cls (fun c => c == ',')) false, wsS,
  RE.opt (reSeq [litCI "has", wsP, litCI "on", wsP,
    RE.grp 3 (reSeq [RE.rep Char.isDigit 1 (some 2) false, wsP,
      RE.rep Char.isAlpha 1 none false, wsP,
      RE.rep Char.isDigit 4 (some 4) false]),
    wsP]) false,
  RE.grp 4 (RE.alt (litCI "bought") (RE.alt (litCI "purchased")
    (RE.alt (litCI "acquired") (litCI "sold")))),
  wsP,
  RE.grp 5 (RE.rep numCls 1 none false),
  wsS, litCI "shares", RE.wb,
  RE.opt (reSeq [RE.rep notNlCls 0 none true, RE.wb, litCI "share", wsP,
    litCI "price", wsP, RE.opt (reSeq [litCI "of", wsP]) false,
    RE.grp 6 (RE.rep Char.isAlpha 3 (some 3) false), wsS,
    RE.grp 7 (reSeq [RE.rep Char.isDigit 1 none false,
      RE.opt (reSeq [RE.cls dotCommaCls,
        RE.rep Char.isDigit 1 none false]) false])]) false]

/-- The aggregate fallback pattern (groups shares=1, ccy=2, price=3):

  \btotal\s+of\s+(?P<shares>[\d\.,\s]+)\s*shares\b.*?\b
  (?:average\s+price\s+per\s+share\s+of|average\s+price\s+per\s+share\s+was
    |at\s+an\s+average\s+price\s+per\s+share\s+of)\s*
  (?P<ccy>[A-Z]{3})\s*(?P<price>[\d]+(?:[.,]\d+)?)
-/
def aggPat : RE := reSeq [
  RE.wb, litCI "total", wsP, litCI "of", wsP,
  RE.grp 1 (RE.rep numCls 1 none false), wsS, litCI "shares", RE.wb,
  RE.rep notNlCls 0 none true, RE.wb,
  RE.alt (reSeq [litCI "average", wsP, litCI "price", wsP, litCI "per", wsP,
      litCI "share", wsP, litCI "of"])
    (RE.alt (reSeq [litCI "average", wsP, litCI "price", wsP, litCI "per",
        wsP, litCI "share", wsP, litCI "was"])
      (reSeq [litCI "at", wsP, litCI "an", wsP, litCI "average", wsP,
        litCI "price", wsP, litCI "per", wsP, litCI "share", wsP,
        litCI "of"])),
  wsS,
  RE.grp 2 (RE.rep Char.isAlpha 3 (some 3) false), wsS,
  RE.grp 3 (reSeq [RE.rep Char.isDigit 1 none false,
    RE.opt (reSeq [RE.cls dotCommaCls, RE.rep Char.isDigit 1 none false])
      false])]

/-- A trade record: the dictionary built by the extractors.  The source's
missing `_issuer_from_pdf` key (free-text records) is modelled as `""`,
which the consumer treats identically to `None` (both falsy). -/
structure Rec where
  insiderName : Str := []
  role : Str := []
  transaction : Str := []
  shares : Str := []
  price : Str := []
  value : Str := []
  ownershipAfter : Str := []
  tradeDate : Str := []
  issuerFromPdf : Str := []
  deriving DecidableEq

/-- The record built from one sentence match of `freeTextPat`. -/
def mkSentenceRec (t : Str) (m : Nat × Nat × Caps) : Rec :=
  let caps := m.2.2
  let verb := (groupStr t caps 4).map lowerC
  let txn :=
    if verb = cs "bought" ∨ verb = cs "purchased" ∨ verb = cs "acquired"
    then cs "BUY" else cs "SELL"
  let ccy := (groupStr t caps 6).map upperC
  let price := _to_decimalish (groupStr t caps 7)
  { insiderName := clean (groupStr t caps 1)
    role := clean (groupStr t caps 2)
    transaction := txn
    shares := _to_intish (groupStr t caps 5)
    price := if ccy ≠ [] ∧ price ≠ [] then pyStrip (ccy ++ ' ' :: price)
             else []
    tradeDate := clean (groupStr t caps 3) }

/-!
Section: Structured-form (MAR template) extractor (`parse_mar_pdf_text`)

Literal-phrase helpers model `re.split`/`re.search` on literal patterns.
-/

/-- Does the case-insensitive phrase occur at position `p` of `t`? -/
def phraseAtCI (phrase t : Str) (p : Nat) : Bool :=
  (phrase.map lowerC).isPrefixOf ((t.drop p).map lowerC)

/-- Model of `re.search(phrase, t, re.IGNORECASE) is not None` for a literal. -/
def containsCI (phrase t : Str) : Bool :=
  (List.range (t.length + 1)).any (phraseAtCI phrase t)

/-- All positions at which the phrase occurs (the split points of
`re.split` on a lookahead `(?=phrase)`). -/
def splitPoints (phrase t : Str) : List Nat :=
  (List.range (t.length + 1)).filter (phraseAtCI phrase t)

/-- Cut `t` at the given ascending positions, keeping all segments. -/
def cutAt (t : Str) : Nat → List Nat → List Str
  | i, [] => [t.drop i]
  | i, p :: ps => ((t.drop i).take (p - i)) :: cutAt t p ps

/-- Model of `re.split(rf"(?=phrase)", t, flags=re.IGNORECASE)`. -/
def splitKeepCI (phrase t : Str) : List Str := cutAt t 0 (splitPoints phrase t)

/-- First occurrence of the phrase at or after `start`. -/
def findFromCI (phrase t : Str) (start : Nat) : Option Nat :=
  (List.range (t.length + 1 - start)).findSome? (fun d =>
    if phraseAtCI phrase t (start + d) then some (start + d) else none)

/-- Worker for `re.split` on a literal: leftmost, non-overlapping, the
delimiter is removed. -/
def splitOnAux (phrase t : Str) : Nat → Nat → List Str
  | 0, i => [t.drop i]
  | fuel + 1, i =>
    match findFromCI phrase t i with
    | none => [t.drop i]
    | some p =>
      ((t.drop i).take (p - i)) :: splitOnAux phrase t fuel (p + phrase.length)

/-- Model of `re.split(phrase, t, flags=re.IGNORECASE)` for a literal phrase. -/
def splitOnCI (phrase t : Str) : List Str := splitOnAux phrase t (t.length + 1) 0

/-- Python's substring test `a in b`. -/
def inStr (a b : Str) : Bool :=
  (List.range (b.length + 1)).any (fun p => a.isPrefixOf (b.drop p))

/-- Function `_txn_from_nature` from the source. -/
def _txn_from_nature (nature : Str) : Str :=
  let n := (pyStrip nature).map lowerC
  if inStr (cs "acquisition") n || inStr (cs "purchase") n
      || inStr (cs "buy") n then cs "BUY"
  else if inStr (cs "disposal") n || inStr (cs "sale") n
      || inStr (cs "sell") n then cs "SELL"
  else []

/-- Pattern `\bName\s+([A-ZÆØÅ][A-Za-zÆØÅæøå\-\.\s]+)` (IGNORECASE). -/
def marNameRE : RE := reSeq [RE.wb, litCI "Name", wsP,
  RE.grp 1 (reSeq [RE.cls nameStartCls, RE.rep nameRestCls 1 none false])]

/-- Pattern `\bPosition/status\s+([A-Za-z0-9\-\/\s]+)` (IGNORECASE). -/
def marRoleRE : RE := reSeq [RE.wb, litCI "Position/status", wsP,
  RE.grp 1 (RE.rep roleCls 1 none false)]

/-- Pattern `Details of the issuer.*?\bName\s+([A-Za-z0-9 .,&\-]+)`
(IGNORECASE, DOTALL). -/
def marIssuerRE : RE := reSeq [litCI "Details of the issuer",
  RE.rep anyCls 0 none true, RE.wb, litCI "Name", wsP,
  RE.grp 1 (RE.rep issuerCls 1 none false)]

/-- Pattern `\bNature of the transaction\s+([A-Za-z ]+)` (IGNORECASE). -/
def marNatureRE : RE := reSeq [RE.wb, litCI "Nature of the transaction", wsP,
  RE.grp 1 (RE.rep alphaSpaceCls 1 none false)]

/-- Pattern `\bDate of the transaction\s+(\d{4}-\d{2}-\d{2})` (IGNORECASE). -/
def marDateRE : RE := reSeq [RE.wb, litCI "Date of the transaction", wsP,
  RE.grp 1 (reSeq [RE.rep Char.isDigit 4 (some 4) false, litCS "-",
    RE.rep Char.isDigit 2 (some 2) false, litCS "-",
    RE.rep Char.isDigit 2 (some 2) false])]

/-- The combined price/volume pattern (IGNORECASE), groups ccy=1, price=2,
vol=3:

  \bPrice(?:\(s\))?\s*:\s*(?P<ccy>[A-Z]{3})\s*(?P<price>[\d\.,\s]+)
  (?:\s*,?\s*volume(?:\(s\))?\s*:\s*(?P<vol>[\d\.,\s]+))?
-/
def marPvRE : RE := reSeq [RE.wb, litCI "Price", RE.opt (litCI "(s)") false,
  wsS, litCS ":", wsS,
  RE.grp 1 (RE.rep Char.isAlpha 3 (some 3) false), wsS,
  RE.grp 2 (RE.rep numCls 1 none false),
  RE.opt (reSeq [wsS, RE.opt (litCS ",") false, wsS, litCI "volume",
    RE.opt (litCI "(s)") false, wsS, litCS ":", wsS,
    RE.grp 3 (RE.rep numCls 1 none false)]) false]

/-- Pattern `\bAggregated information:\s*Volume\s+([\d\.,\s]+)` (IGNORECASE). -/
def marAggVolRE : RE := reSeq [RE.wb, litCI "Aggregated information:", wsS,
  litCI "Volume", wsP, RE.grp 1 (RE.rep numCls 1 none false)]

/-- Pattern `\bVolume\s+([\d\.,\s]+)` (IGNORECASE). -/
def marVolRE : RE := reSeq [RE.wb, litCI "Volume", wsP,
  RE.grp 1 (RE.rep numCls 1 none false)]

/-- Pattern `\bVolume weighted average price\s+([\d\.,\s]+)` (IGNORECASE). -/
def marVwapRE : RE := reSeq [RE.wb, litCI "Volume weighted average price",
  wsP, RE.grp 1 (RE.rep numCls 1 none false)]

/-- Pattern `\bNOK\b` (case-sensitive: this search has no flags). -/
def nokRE : RE := reSeq [RE.wb, litCS "NOK", RE.wb]

/-- Pattern `\bTotal price\s+(?P<ccy>[A-Z]{3})\s*(?P<tot>[\d\.,\s]+)`
(IGNORECASE). -/
def marTotalRE : RE := reSeq [RE.wb, litCI "Total price", wsP,
  RE.grp 1 (RE.rep Char.isAlpha 3 (some 3) false), wsS,
  RE.grp 2 (RE.rep numCls 1 none false)]

/-- Model of `re.search` returning one capture group of the first match. -/
def searchGroup (re : RE) (t : Str) (i : Nat) : Option Str :=
  (reSearch re t).map (fun m => groupStr t m.2.2 i)

/-- The values parsed from one transaction chunk of a person block. -/
structure ChunkVals where
  txn : Str
  tradeDate : Str
  ccy : Str
  price : Str
  vol : Str
  totalVal : Str
  deriving DecidableEq

/-- Per-chunk parsing of `parse_mar_pdf_text` (nature, date, price/volume
with the volume and VWAP fallbacks, total price). -/
def marChunkVals (ch : Str) : ChunkVals :=
  let nature := match searchGroup marNatureRE ch 1 with
    | some g => clean g | none => []
  let txn := _txn_from_nature nature
  let tradeDate := match searchGroup marDateRE ch 1 with
    | some g => clean g | none => []
  let pv :=
    match reSearch marPvRE ch with
    | some m => ((groupStr ch m.2.2 1).map upperC,
        _to_decimalish (groupStr ch m.2.2 2), _to_intish (groupStr ch m.2.2 3))
    | none => ([], [], [])
  let ccy := pv.1
  let price := pv.2.1
  let vol := pv.2.2
  let vol :=
    if vol = [] then
      match searchGroup marAggVolRE ch 1 with
      | some g => _to_intish g
      | none =>
        match searchGroup marVolRE ch 1 with
        | some g =>
          if containsCI (cs "Volume weighted average price") ch then vol
          else if vol = [] then _to_intish g else vol
        | none => vol
    else vol
  let pc :=
    if price = [] then
      match searchGroup marVwapRE ch 1 with
      | some g =>
        (_to_decimalish g,
         if ccy = [] then
           (if (reSearch nokRE ch).isSome then cs "NOK" else ccy)
         else ccy)
      | none => (price, ccy)
    else (price, ccy)
  let totalVal :=
    match reSearch marTotalRE ch with
    | some m => ((groupStr ch m.2.2 1).map upperC) ++
        ' ' :: _to_decimalish (groupStr ch m.2.2 2)
    | none => []
  ⟨txn, tradeDate, pc.2, pc.1, vol, totalVal⟩

/-- The source's "add row if meaningful" guard:
`any([name, role, txn, vol, price, trade_date, total_val])`. -/
def marGuard (name role : Str) (ch : Str) : Bool :=
  let v := marChunkVals ch
  !name.isEmpty || !role.isEmpty || !v.txn.isEmpty || !v.vol.isEmpty ||
    !v.price.isEmpty || !v.tradeDate.isEmpty || !v.totalVal.isEmpty

/-- The row appended for one meaningful transaction chunk. -/
def mkMarRec (name role issuer : Str) (ch : Str) : Rec :=
  let v := marChunkVals ch
  { insiderName := name
    role := role
    transaction := v.txn
    shares := v.vol
    price := if v.ccy ≠ [] ∧ v.price ≠ [] then pyStrip (v.ccy ++ ' ' :: v.price)
             else if v.ccy ≠ [] then pyStrip v.ccy else []
    value := v.totalVal
    tradeDate := v.tradeDate
    issuerFromPdf := issuer }

/-- Records contributed by one transaction chunk. -/
def marChunkRecords (name role issuer : Str) (ch : Str) : List Rec :=
  if marGuard name role ch then [mkMarRec name role issuer ch] else []

/-- Phrase `"Details of the transaction"`, the chunk delimiter. -/
def txnSplitPhrase : Str := cs "Details of the transaction"

/-- Person-block processing of `parse_mar_pdf_text`. -/
def marBlockRecords (b : Str) : List Rec :=
  let block := pyStrip b
  if block = [] then []
  else
    let name := match searchGroup marNameRE block 1 with
      | some g => clean g | none => []
    let role := match searchGroup marRoleRE block 1 with
      | some g => clean g | none => []
    let issuer := match searchGroup marIssuerRE block 1 with
      | some g => clean g | none => []
    let chunks :=
      if containsCI txnSplitPhrase block then
        let parts := splitOnCI txnSplitPhrase block
        let cks := ((parts.drop 1).filter (fun p => pyStrip p ≠ [])).map
          (fun p => pyStrip (cs "Details of the transaction " ++ p))
        if cks = [] then [block] else cks
      else [block]
    chunks.flatMap (marChunkRecords name role issuer)

/-- The person-block header phrase. -/
def personHeader : Str :=
  cs "Details of the person discharging managerial responsibilities/person closely associated"

/-- The form's top-level title (older template fallback). -/
def marTitle : Str :=
  cs "NOTIFICATION OF TRANSACTIONS PURSUANT TO THE MARKET ABUSE REGULATION ARTICLE 19"

/-- Deduplication key: the tuple of the seven displayed fields. -/
def recKey (r : Rec) : Str × Str × Str × Str × Str × Str × Str :=
  (r.insiderName, r.role, r.transaction, r.shares, r.price, r.tradeDate,
   r.value)

/-- Order-preserving first-seen deduplication of records. -/
def dedupRecsAux (seen : List (Str × Str × Str × Str × Str × Str × Str)) :
    List Rec → List Rec
  | [] => []
  | r :: rest =>
    if recKey r ∈ seen then dedupRecsAux seen rest
    else r :: dedupRecsAux (recKey r :: seen) rest

/-- Function `parse_mar_pdf_text` from the source. -/
def parse_mar_pdf_text (pdf_text : Str) : List Rec :=
  if pyStrip pdf_text = [] then []
  else
    let blocks :=
      if containsCI personHeader pdf_text then splitKeepCI personHeader pdf_text
      else splitKeepCI marTitle pdf_text
    dedupRecsAux [] (blocks.flatMap marBlockRecords)

/-- Function `extract_trades_from_text` from the source. -/
def extract_trades_from_text (text : Str) : List Rec :=
  let t := clean text
  let trades := (finditer freeTextPat t).map (mkSentenceRec t)
  if trades ≠ [] then trades
  else
    match reSearch aggPat t with
    | some m =>
      let caps := m.2.2
      let ccy := (groupStr t caps 2).map upperC
      [{ insiderName := cs "(Aggregate – primary insiders)"
         transaction := cs "BUY"
         shares := _to_intish (groupStr t caps 1)
         price := ccy ++ ' ' :: _to_decimalish (groupStr t caps 3) }]
    | none => []

/-!
Section: Extraction orchestrator (`extract_trades_prefer_pdf_then_fallback`)

Network download and PDF-to-text conversion are external collaborators;
they are modelled by a function from attachment locator to outcome.
`FetchOutcome.fail` is any exception raised while handling the attachment
(caught by the source's `except: continue`); `FetchOutcome.text s` is the
(possibly empty) text `try_pdf_to_text` produced. -/
inductive FetchOutcome where
  | fail
  | text (s : Str)

/-- Metadata of one release page (`parse_release_meta_and_text`'s result).
The defaults model the `{"body_text": "", "pdf_urls": []}` dictionary the
caller substitutes when parsing raises. -/
structure Meta where
  date_filed : Str := []
  issuer : Str := []
  symbol : Str := []
  market : Str := []
  body_text : Str := []
  pdf_urls : List Str := []
  deriving DecidableEq

/-- What one attachment contributes: nothing on failure or empty text,
otherwise the structured-form extractor's output. -/
def attachmentYield (fetch : Str → FetchOutcome) (u : Str) : List Rec :=
  match fetch u with
  | .fail => []
  | .text s => if s = [] then [] else parse_mar_pdf_text s

/-- The source's attachment loop: try each locator; on failure or empty
text or empty parse continue; return the first non-empty parse; fall back
to the free-text extractor on the body. -/
def orchGo (fetch : Str → FetchOutcome) (body : Str) : List Str → List Rec
  | [] => extract_trades_from_text body
  | u :: rest =>
    match fetch u with
    | .fail => orchGo fetch body rest
    | .text s =>
      if s = [] then orchGo fetch body rest
      else
        let trades := parse_mar_pdf_text s
        if trades = [] then orchGo fetch body rest else trades

/-- Function `extract_trades_prefer_pdf_then_fallback` from the source: the loop
runs over `pdf_urls[:3]`. -/
def extract_trades_prefer_pdf_then_fallback (fetch : Str → FetchOutcome)
    (meta : Meta) : List Rec :=
  orchGo fetch meta.body_text (meta.pdf_urls.take 3)

/-!
Section: Attachment locator collection (`parse_release_meta_and_text`)

The HTML parse is an external collaborator; the relevant input is the
document-ordered list of `a[href]` targets of the page, from which the
source collects PDF links.
-/

/-- Function `norm_url` from the source. -/
def norm_url (href : Str) : Str :=
  if href = [] then []
  else if href.head? = some '/' then cs "https://live.euronext.com" ++ href
  else href

/-- Order-preserving first-seen deduplication
(`list(dict.fromkeys(...))`). -/
def dedupFirstAux (seen : List Str) : List Str → List Str
  | [] => []
  | u :: rest =>
    if u ∈ seen then dedupFirstAux seen rest
    else u :: dedupFirstAux (u :: seen) rest

/-- Model of `list(dict.fromkeys(l))`. -/
def dedupFirst (l : List Str) : List Str := dedupFirstAux [] l

/-- The source's attachment test: `".pdf" in href.lower()`. -/
def containsPdfCI (href : Str) : Bool := inStr (cs ".pdf") (href.map lowerC)

/-- The attachment-locator collection of `parse_release_meta_and_text`:
filter hyperlink targets by `containsPdfCI`, normalise, de-duplicate. -/
def collectPdfUrls (hrefs : List Str) : List Str :=
  dedupFirst ((hrefs.filter containsPdfCI).map norm_url)

/-!
Section: The merge loop of `main`

Inputs are the previously persisted rows, the candidate releases (with the
deterministic outcome of metadata parsing: `none` models an exception,
handled by the source's `except` default), the OSEBX allow-list and the
attachment fetch function.
-/

/-- One candidate release from the listing scrape, together with the
outcome of `parse_release_meta_and_text` on its link. -/
structure Cand where
  released : Str := []
  company : Str := []
  title : Str := []
  topic : Str := []
  signal_type : Str := []
  ticker_guess : Str := []
  link : Str := []
  metaOutcome : Option Meta := none
  deriving DecidableEq

/-- One persisted CSV row (the source's FIELDNAMES). -/
structure Row where
  uid : Str := []
  dateFiled : Str := []
  tradeDate : Str := []
  ticker : Str := []
  company : Str := []
  insiderName : Str := []
  role : Str := []
  transaction : Str := []
  shares : Str := []
  price : Str := []
  value : Str := []
  ownershipAfter : Str := []
  sourceLink : Str := []
  market : Str := []
  topic : Str := []
  signalType : Str := []
  title : Str := []
  deriving DecidableEq

/-- Python's `x or y` on strings. -/
def pyOr (a b : Str) : Str := if a = [] then b else a

/-- Set `existing_ids`: the non-empty `Unique_ID` values of the table. -/
def idsOf (rows : List Row) : List Str :=
  (rows.map Row.uid).filter (fun u => u ≠ [])

/-- The skip test of `main`:
`any(uid.startswith(link + "|") for uid in existing_ids)`. -/
def prefixSkip (ids : List Str) (link : Str) : Bool :=
  ids.any (fun uid => (link ++ ['|']).isPrefixOf uid)

/-- Whether `main` attempts metadata parsing and trade extraction for a
candidate: only the locator-prefix check stands before them. -/
def candAttempted (ids : List Str) (c : Cand) : Bool := !prefixSkip ids c.link

/-- The exception default `{"body_text": "", "pdf_urls": []}`. -/
def emptyMeta : Meta := {}

/-- Expression `(meta.get("symbol") or rel["ticker_guess"] or "").upper()`. -/
def candTicker (c : Cand) : Str :=
  (pyOr (c.metaOutcome.getD emptyMeta).symbol (pyOr c.ticker_guess [])).map
    upperC

/-- The allow-list filter: `osebx and ticker and ticker not in osebx`. -/
def osebxSkip (osebx : List Str) (ticker : Str) : Bool :=
  !osebx.isEmpty && !ticker.isEmpty && !osebx.contains ticker

/-- Decimal digits of `i`, for the `f"{link}|{i}"` identity format. -/
def natStr (n : Nat) : Str := Nat.toDigits 10 n

/-- Identity `Unique_ID` of position `i` for a locator. -/
def mkUid (link : Str) (i : Nat) : Str := link ++ '|' :: natStr i

/-- The row written for the `i`-th extracted trade of a release. -/
def mkTradeRow (link dateFiled ticker company market topic signalType
    title : Str) (i : Nat) (t : Rec) : Row :=
  { uid := mkUid link i
    dateFiled := dateFiled
    tradeDate := t.tradeDate
    ticker := ticker
    company := company
    insiderName := t.insiderName
    role := t.role
    transaction := t.transaction
    shares := t.shares
    price := t.price
    value := t.value
    ownershipAfter := t.ownershipAfter
    sourceLink := link
    market := market
    topic := topic
    signalType := signalType
    title := title }

/-- The signal-only placeholder row (`f"{link}|0"`, empty extracted
fields). -/
def mkSignalRow (link dateFiled ticker company market topic signalType
    title : Str) : Row :=
  { uid := mkUid link 0
    dateFiled := dateFiled
    ticker := ticker
    company := company
    sourceLink := link
    market := market
    topic := topic
    signalType := signalType
    title := title }

/-- The rows `main` appends for one candidate release. -/
def candNewRows (ids : List Str) (osebx : List Str)
    (fetch : Str → FetchOutcome) (c : Cand) : List Row :=
  if prefixSkip ids c.link then []
  else
    let meta := c.metaOutcome.getD emptyMeta
    let ticker := candTicker c
    let company := pyOr meta.issuer c.company
    let market := pyOr meta.market (cs "EURONEXT/OSLO")
    let dateFiled := pyOr meta.date_filed c.released
    if osebxSkip osebx ticker then []
    else
      let trades := extract_trades_prefer_pdf_then_fallback fetch meta
      if trades = [] then
        let row0 := mkSignalRow c.link dateFiled ticker company market
          c.topic c.signal_type c.title
        if row0.uid ∈ ids then [] else [row0]
      else
        let company2 :=
          match trades.head? with
          | some t0 => if t0.issuerFromPdf ≠ [] then t0.issuerFromPdf
                       else company
          | none => company
        (trades.enum.map (fun it => mkTradeRow c.link dateFiled ticker
          company2 market c.topic c.signal_type c.title (it.1 + 1)
          it.2)).filter (fun row => row.uid ∉ ids)

/-- List `new_rows`: all candidates are processed against the same
`existing_ids` (the set is not updated inside the loop). -/
def mainNewRows (ids : List Str) (osebx : List Str)
    (fetch : Str → FetchOutcome) (cands : List Cand) : List Row :=
  cands.flatMap (candNewRows ids osebx fetch)

/-- One run of `main`'s merge: `all_rows = existing_rows + new_rows`. -/
def mainRun (osebx : List Str) (fetch : Str → FetchOutcome)
    (existing : List Row) (cands : List Cand) : List Row :=
  existing ++ mainNewRows (idsOf existing) osebx fetch cands

/-!
Section: Helper lemmas
-/

theorem dropWhile_head_false {p : Char → Bool} :
    ∀ {l : Str} {c : Char} {t : Str}, l.dropWhile p = c :: t → p c = false := by
  intro l
  induction l with
  | nil => intro c t h; simp at h
  | cons a l ih =>
    intro c t h
    rw [List.dropWhile_cons] at h
    by_cases hp : p a = true
    · rw [if_pos hp] at h; exact ih h
    · rw [if_neg hp] at h
      cases h
      simpa using hp

/-- Unfolding `collapseWs` on a whitespace head, inside a run. -/
theorem collapseWs_ws_true {c : Char} (hc : isWsC c = true) (rest : Str) :
    collapseWs true (c :: rest) = collapseWs true rest := by
  simp [collapseWs, hc]

/-- Unfolding `collapseWs` on a whitespace head, starting a run. -/
theorem collapseWs_ws_false {c : Char} (hc : isWsC c = true) (rest : Str) :
    collapseWs false (c :: rest) = ' ' :: collapseWs true rest := by
  simp [collapseWs, hc]

/-- Unfolding `collapseWs` on a non-whitespace head. -/
theorem collapseWs_not_ws {c : Char} (hc : isWsC c = false) (b : Bool)
    (rest : Str) : collapseWs b (c :: rest) = c :: collapseWs false rest := by
  cases b <;> simp [collapseWs, hc]

theorem getLast?_cons_of_ne_nil {x : Char} {z : Str} (h : z ≠ []) :
    (x :: z).getLast? = z.getLast? := by
  cases z with
  | nil => exact absurd rfl h
  | cons r rs => exact List.getLast?_cons_cons

/-- Lemma: `pyStrip` reversed is a `dropWhile` of the reversed left-stripped
string. -/
theorem pyStrip_reverse (x : Str) :
    (pyStrip x).reverse = (dropLead x).reverse.dropWhile isWsC := by
  simp [pyStrip, dropTrail]

/-- The first character of a stripped string is not whitespace. -/
theorem pyStrip_head : ∀ {x c t}, pyStrip x = c :: t → isWsC c = false := by
  intro x c t h
  have hpre : pyStrip x <+: dropLead x := by
    have hsuf : (dropLead x).reverse.dropWhile isWsC <:+ (dropLead x).reverse :=
      List.dropWhile_suffix isWsC
    obtain ⟨u, hu⟩ := hsuf
    refine ⟨u.reverse, ?_⟩
    have : (pyStrip x).reverse = (dropLead x).reverse.dropWhile isWsC :=
      pyStrip_reverse x
    calc pyStrip x ++ u.reverse
        = ((dropLead x).reverse.dropWhile isWsC).reverse ++ u.reverse := by
          rw [← this, List.reverse_reverse]
      _ = (u ++ (dropLead x).reverse.dropWhile isWsC).reverse := by
          rw [List.reverse_append]
      _ = dropLead x := by rw [hu, List.reverse_reverse]
  obtain ⟨v, hv⟩ := hpre
  rw [h] at hv
  exact dropWhile_head_false (l := x) (by
    show x.dropWhile isWsC = c :: (t ++ v)
    simpa [dropLead] using hv.symm)

/-- The last character of a stripped string is not whitespace. -/
theorem pyStrip_getLast :
    ∀ {x c}, (pyStrip x).getLast? = some c → isWsC c = false := by
  intro x c h
  rw [← List.head?_reverse, pyStrip_reverse] at h
  cases hd : (dropLead x).reverse.dropWhile isWsC with
  | nil => rw [hd] at h; simp at h
  | cons a tl =>
    rw [hd] at h
    simp only [List.head?_cons, Option.some.injEq] at h
    subst h
    exact dropWhile_head_false hd

/-- Collapsing whitespace runs is idempotent (for either starting flag). -/
theorem collapseWs_collapseWs :
    ∀ (l : Str) (b : Bool), collapseWs b (collapseWs b l) = collapseWs b l := by
  intro l
  induction l with
  | nil => intro b; rfl
  | cons c rest ih =>
    intro b
    by_cases hws : isWsC c = true
    · cases b
      · rw [collapseWs_ws_false hws, collapseWs_ws_false (by decide), ih true]
      · rw [collapseWs_ws_true hws]
        exact ih true
    · have hws' : isWsC c = false := by simpa using hws
      rw [collapseWs_not_ws hws', collapseWs_not_ws hws', ih false]

/-- Collapsing preserves a non-whitespace last character. -/
theorem collapseWs_getLast :
    ∀ (l : Str), ∀ (b : Bool) {c : Char}, l.getLast? = some c →
      isWsC c = false →
      ∃ d, (collapseWs b l).getLast? = some d ∧ isWsC d = false := by
  intro l
  induction l with
  | nil => intro b c h; simp at h
  | cons a rest ih =>
    intro b c h hc
    cases rest with
    | nil =>
      simp only [List.getLast?_singleton, Option.some.injEq] at h
      subst h
      refine ⟨a, ?_, hc⟩
      rw [collapseWs_not_ws hc]
      rfl
    | cons r rs =>
      rw [List.getLast?_cons_cons] at h
      by_cases hws : isWsC a = true
      · cases b
        · obtain ⟨d, hd, hdw⟩ := ih true h hc
          refine ⟨d, ?_, hdw⟩
          rw [collapseWs_ws_false hws,
            getLast?_cons_of_ne_nil (by intro he; rw [he] at hd; simp at hd)]
          exact hd
        · obtain ⟨d, hd, hdw⟩ := ih true h hc
          exact ⟨d, by rw [collapseWs_ws_true hws]; exact hd, hdw⟩
      · have hws' : isWsC a = false := by simpa using hws
        obtain ⟨d, hd, hdw⟩ := ih false h hc
        refine ⟨d, ?_, hdw⟩
        rw [collapseWs_not_ws hws',
          getLast?_cons_of_ne_nil (by intro he; rw [he] at hd; simp at hd)]
        exact hd

/-- A cleaned string is already stripped. -/
theorem pyStrip_clean (x : Str) : pyStrip (clean x) = clean x := by
  show pyStrip (collapseWs false (pyStrip x)) = collapseWs false (pyStrip x)
  cases hs : pyStrip x with
  | nil => rfl
  | cons c t =>
    have hc : isWsC c = false := pyStrip_head hs
    have hw : collapseWs false (c :: t) = c :: collapseWs false t :=
      collapseWs_not_ws hc false t
    have hlast : ∃ e, (c :: t).getLast? = some e ∧ isWsC e = false := by
      have hne : (c :: t) ≠ ([] : Str) := by simp
      have hsome : (c :: t).getLast?.isSome := List.getLast?_isSome.mpr hne
      obtain ⟨e, he⟩ := Option.isSome_iff_exists.mp hsome
      exact ⟨e, he, pyStrip_getLast (hs ▸ he)⟩
    obtain ⟨e, he, hew⟩ := hlast
    obtain ⟨d, hd, hdw⟩ := collapseWs_getLast (c :: t) false he hew
    have hlead : dropLead (collapseWs false (c :: t)) =
        collapseWs false (c :: t) := by
      rw [hw]
      simp [dropLead, List.dropWhile_cons, hc]
    have htrail : dropTrail (collapseWs false (c :: t)) =
        collapseWs false (c :: t) := by
      have hrev : (collapseWs false (c :: t)).reverse.head? = some d := by
        rw [List.head?_reverse]; exact hd
      unfold dropTrail
      cases hz : (collapseWs false (c :: t)).reverse with
      | nil => rw [hz] at hrev; simp at hrev
      | cons z zs =>
        rw [hz] at hrev
        simp only [List.head?_cons, Option.some.injEq] at hrev
        subst hrev
        rw [List.dropWhile_cons, if_neg (by simp [hdw]), ← hz,
          List.reverse_reverse]
    show dropTrail (dropLead (collapseWs false (c :: t))) =
      collapseWs false (c :: t)
    rw [hlead, htrail]

/-- Every piece produced by `splitOnP` consists of characters of the
original list, none satisfying the splitting predicate. -/
theorem splitOnP_mem {q : Char → Bool} :
    ∀ (l : Str) (p : Str), p ∈ l.splitOnP q → ∀ c ∈ p, c ∈ l ∧ q c = false := by
  intro l
  induction l with
  | nil =>
    intro p hp c hc
    rw [List.splitOnP_nil] at hp
    simp only [List.mem_singleton] at hp
    subst hp
    simp at hc
  | cons x xs ih =>
    intro p hp c hc
    rw [List.splitOnP_cons] at hp
    by_cases hq : q x = true
    · rw [if_pos hq] at hp
      rcases List.mem_cons.mp hp with h | h
      · subst h; simp at hc
      · obtain ⟨h1, h2⟩ := ih p h c hc
        exact ⟨List.mem_cons_of_mem x h1, h2⟩
    · rw [if_neg hq] at hp
      cases heq : xs.splitOnP q with
      | nil => exact absurd heq (List.splitOnP_ne_nil q xs)
      | cons h t =>
        rw [heq] at hp
        simp only [List.modifyHead] at hp
        rcases List.mem_cons.mp hp with hph | hpt
        · subst hph
          rcases List.mem_cons.mp hc with hcx | hch
          · subst hcx
            exact ⟨List.mem_cons_self c xs, by simpa using hq⟩
          · obtain ⟨h1, h2⟩ := ih h (heq ▸ List.mem_cons_self h t) c hch
            exact ⟨List.mem_cons_of_mem x h1, h2⟩
        · obtain ⟨h1, h2⟩ := ih p (heq ▸ List.mem_cons_of_mem h hpt) c hc
          exact ⟨List.mem_cons_of_mem x h1, h2⟩

theorem mem_foldr_append {c : Char} :
    ∀ (L : List Str), c ∈ L.foldr (· ++ ·) [] ↔ ∃ p ∈ L, c ∈ p := by
  intro L
  induction L with
  | nil => simp
  | cons a L ih => simp [List.mem_append, ih]

theorem count_foldr_append_zero {L : List Str}
    (h : ∀ p ∈ L, '.' ∉ p) : (L.foldr (· ++ ·) []).count '.' = 0 := by
  induction L with
  | nil => rfl
  | cons a L ih =>
    show ((a ++ L.foldr (· ++ ·) []).count '.') = 0
    rw [List.count_append, List.count_eq_zero.mpr (h a (by simp)),
      ih (fun p hp => h p (List.mem_cons_of_mem a hp))]

theorem getLastD_mem {α : Type} :
    ∀ (l : List α) (d : α), l ≠ [] → l.getLastD d ∈ l := by
  intro l
  induction l with
  | nil => intro d h; exact absurd rfl h
  | cons a t ih =>
    intro d _
    cases t with
    | nil => simp
    | cons b u =>
      rw [List.getLastD_cons]
      exact List.mem_cons_of_mem a (ih a (by simp))

/-- Lemma: `keepLastDot` always produces exactly one period. -/
theorem keepLastDot_count (s : Str) : (keepLastDot s).count '.' = 1 := by
  unfold keepLastDot
  have hparts : ∀ p ∈ s.splitOn '.', '.' ∉ p := by
    intro p hp hdot
    have := (splitOnP_mem s p hp '.' hdot).2
    simp at this
  rw [List.count_append]
  have h1 : (((s.splitOn '.').dropLast).foldr (· ++ ·) []).count '.' = 0 :=
    count_foldr_append_zero (fun p hp =>
      hparts p (List.dropLast_subset _ hp))
  have h2 : ((s.splitOn '.').getLastD []).count '.' = 0 :=
    List.count_eq_zero.mpr
      (hparts _ (getLastD_mem _ _ (List.splitOnP_ne_nil _ s)))
  rw [h1, List.count_cons_self, h2]

/-- Characters surviving `keepLastDot` come from the input or are the
inserted period. -/
theorem keepLastDot_chars {s : Str} {c : Char} (h : c ∈ keepLastDot s) :
    c ∈ s ∨ c = '.' := by
  unfold keepLastDot at h
  rcases List.mem_append.mp h with h1 | h2
  · obtain ⟨p, hp, hcp⟩ := (mem_foldr_append _).mp h1
    exact Or.inl (splitOnP_mem s p (List.dropLast_subset _ hp) c hcp).1
  · rcases List.mem_cons.mp h2 with h3 | h4
    · exact Or.inr h3
    · exact Or.inl
        (splitOnP_mem s _ (getLastD_mem _ _ (List.splitOnP_ne_nil _ s)) c
          h4).1

theorem modifyHead_append_of_ne_nil {l : List Str} (l2 : List Str)
    (f : Str → Str) (h : l ≠ []) :
    (l ++ l2).modifyHead f = l.modifyHead f ++ l2 := by
  cases l with
  | nil => exact absurd rfl h
  | cons x xs => rfl

/-- Splitting on the last period: the piece after it is the final part. -/
theorem splitOn_append_last (b : Str) (hb : '.' ∉ b) :
    ∀ a : Str, (a ++ '.' :: b).splitOn '.' = a.splitOn '.' ++ [b] := by
  have hsingle : b.splitOnP (fun x => x == '.') = [b] :=
    List.splitOnP_eq_single _ _
      (fun x hx hxe => hb (beq_iff_eq.mp hxe ▸ hx))
  intro a
  induction a with
  | nil =>
    show ('.' :: b).splitOnP (fun x => x == '.') =
      ([] : Str).splitOnP (fun x => x == '.') ++ [b]
    rw [List.splitOnP_cons, if_pos (by decide), List.splitOnP_nil, hsingle]
    rfl
  | cons c a ih =>
    show ((c :: (a ++ '.' :: b)).splitOnP (fun x => x == '.')) =
      ((c :: a).splitOnP (fun x => x == '.')) ++ [b]
    rw [List.splitOnP_cons, List.splitOnP_cons]
    by_cases hc : (c == '.') = true
    · rw [if_pos hc, if_pos hc,
        show (a ++ '.' :: b).splitOnP (fun x => x == '.') =
          a.splitOnP (fun x => x == '.') ++ [b] from ih]
      rfl
    · rw [if_neg hc, if_neg hc,
        show (a ++ '.' :: b).splitOnP (fun x => x == '.') =
          a.splitOnP (fun x => x == '.') ++ [b] from ih]
      exact modifyHead_append_of_ne_nil [b] _ (List.splitOnP_ne_nil _ a)

/-- Concatenating the pieces of a period split recovers the string with
its periods removed. -/
theorem splitOn_foldr_filter : ∀ a : Str,
    (a.splitOn '.').foldr (· ++ ·) [] =
      a.filter (fun c => !(c == '.')) := by
  intro a
  induction a with
  | nil => rfl
  | cons c a ih =>
    show ((c :: a).splitOnP (· == '.')).foldr (· ++ ·) [] = _
    rw [List.splitOnP_cons]
    by_cases hc : (c == '.') = true
    · rw [if_pos hc]
      show ((a.splitOnP (· == '.')).foldr (· ++ ·) []) = _
      rw [show (a.splitOnP (· == '.')).foldr (· ++ ·) [] =
          a.filter (fun c => !(c == '.')) from ih,
        List.filter_cons, if_neg (by simp [hc])]
    · rw [if_neg hc]
      cases heq : a.splitOnP (· == '.') with
      | nil => exact absurd heq (List.splitOnP_ne_nil _ a)
      | cons h t =>
        show c :: (h ++ t.foldr (· ++ ·) []) = _
        rw [List.filter_cons, if_pos (by simp [hc])]
        have hfold : (h :: t).foldr (· ++ ·) [] =
            a.filter (fun c => !(c == '.')) := heq ▸ ih
        show c :: ((h :: t).foldr (· ++ ·) []) = _
        rw [hfold]

theorem getLastD_concat_eq {α : Type} :
    ∀ (l : List α) (b d : α), (l ++ [b]).getLastD d = b := by
  intro l
  induction l with
  | nil => intro b d; rfl
  | cons x l ih =>
    intro b d
    rw [List.cons_append, List.getLastD_cons]
    exact ih b x

/-- Lemma: `keepLastDot` keeps exactly the LAST period: decomposing the
input at its last period as `a ++ "." ++ b` (no period in `b`), the
result is `a` with its periods removed, then the period, then `b`
unchanged. -/
theorem keepLastDot_last (a b : Str) (hb : '.' ∉ b) :
    keepLastDot (a ++ '.' :: b) =
      a.filter (fun c => !(c == '.')) ++ '.' :: b := by
  simp only [keepLastDot]
  rw [splitOn_append_last b hb a, List.dropLast_concat, getLastD_concat_eq,
    splitOn_foldr_filter]

/-- C4. The numeric normalizers satisfy the spec's vectors and policy:
the three given vectors hold; when both comma and period are present every
comma is removed (the result equals that of the comma-stripped input);
when no period is present commas are treated as the decimal separator
(the result equals that of the comma-to-period input); the result carries
at most one period and only digit or period characters; `_to_intish`
output is all digits; and the surviving period is the LAST one: writing
the post-filter string as `a ++ "." ++ b` with no period in `b`, the
result is `a` with its periods removed, the period, then `b` unchanged.
Both functions are total, so neither raises. -/
theorem c4_numeric_normalizers :
    (_to_decimalish (cs "1 403 497,855") = cs "1403497.855" ∧
      _to_decimalish (cs "288,845") = cs "288.845" ∧
      _to_intish (cs "4,859") = cs "4859") ∧
    (∀ x : Str, ',' ∈ x → '.' ∈ x →
      _to_decimalish x = _to_decimalish (x.filter (fun c => !(c == ',')))) ∧
    (∀ x : Str, '.' ∉ x →
      _to_decimalish x =
        _to_decimalish (x.map (fun c => if c == ',' then '.' else c))) ∧
    (∀ x : Str, (_to_decimalish x).count '.' ≤ 1) ∧
    (∀ x : Str, ∀ c ∈ _to_decimalish x, c.isDigit = true ∨ c = '.') ∧
    (∀ x : Str, ∀ c ∈ _to_intish x, c.isDigit = true) ∧
    (∀ x a b : Str,
      decKeep (decSeparators (decSpaceless x)) = a ++ '.' :: b →
      '.' ∉ b →
      _to_decimalish x = a.filter (fun c => !(c == '.')) ++ '.' :: b) := by
  refine ⟨⟨by decide, by decide, by decide⟩, ?_, ?_, ?_, ?_, ?_, ?_⟩
  · -- both separators present: commas are just removed
    intro x hc hd
    have hxne : x ≠ [] := by intro h; rw [h] at hc; simp at hc
    have hyne : x.filter (fun c => !(c == ',')) ≠ [] := by
      intro h
      have : '.' ∈ x.filter (fun c => !(c == ',')) :=
        List.mem_filter.mpr ⟨hd, by decide⟩
      rw [h] at this; simp at this
    unfold _to_decimalish
    rw [if_neg hxne, if_neg hyne]
    suffices h : decSeparators (decSpaceless x) =
        decSeparators (decSpaceless (x.filter (fun c => !(c == ',')))) by
      rw [h]
    have hsw : decSpaceless (x.filter (fun c => !(c == ','))) =
        (decSpaceless x).filter (fun c => !(c == ',')) := by
      unfold decSpaceless; rw [List.filter_comm]
    have hcs1 : ',' ∈ decSpaceless x := List.mem_filter.mpr ⟨hc, by decide⟩
    have hds1 : '.' ∈ decSpaceless x := List.mem_filter.mpr ⟨hd, by decide⟩
    unfold decSeparators
    rw [hsw, if_pos ⟨hcs1, hds1⟩]
    have hnc : ',' ∉ (decSpaceless x).filter (fun c => !(c == ',')) := by
      intro hmem
      have := (List.mem_filter.mp hmem).2
      simp at this
    rw [if_neg (fun hand => hnc hand.1)]
    symm
    have hid : ∀ a ∈ (decSpaceless x).filter (fun c => !(c == ',')),
        (fun c => if c == ',' then '.' else c) a = id a := by
      intro a ha
      have := (List.mem_filter.mp ha).2
      simp only [id]
      rw [if_neg (by simpa using this)]
    rw [List.map_congr_left hid, List.map_id]
  · -- no period present: commas become periods
    intro x hd
    by_cases hxe : x = []
    · subst hxe; rfl
    · unfold _to_decimalish
      rw [if_neg hxe,
        if_neg (fun h => hxe (List.map_eq_nil_iff.mp h))]
      suffices h : decSeparators (decSpaceless x) =
          decSeparators (decSpaceless
            (x.map (fun c => if c == ',' then '.' else c))) by
        rw [h]
      have hfm : decSpaceless (x.map (fun c => if c == ',' then '.' else c)) =
          (decSpaceless x).map (fun c => if c == ',' then '.' else c) := by
        unfold decSpaceless
        rw [List.filter_map]
        congr 1
        apply List.filter_congr
        intro c _
        by_cases hcc : c = ','
        · subst hcc; rfl
        · rw [Function.comp_apply, if_neg (by simpa using hcc)]
      have hds1 : '.' ∉ decSpaceless x := by
        intro hmem; exact hd (List.mem_filter.mp hmem).1
      unfold decSeparators
      rw [hfm, if_neg (fun hand => hds1 hand.2)]
      have hnc2 : ',' ∉ (decSpaceless x).map
          (fun c => if c == ',' then '.' else c) := by
        intro hmem
        obtain ⟨a, _, ha⟩ := List.mem_map.mp hmem
        by_cases hac : a = ','
        · rw [if_pos (by simpa using hac)] at ha; cases ha
        · rw [if_neg (by simpa using hac)] at ha; exact hac ha
      rw [if_neg (fun hand => hnc2 hand.1), List.map_map]
      apply List.map_congr_left
      intro a _
      by_cases hac : a = ','
      · subst hac; rfl
      · simp only [Function.comp_apply]
        rw [if_neg (by simpa using hac), if_neg (by simpa using hac)]
  · -- at most one period in the output
    intro x
    unfold _to_decimalish
    split
    · simp
    · unfold decFinal
      split
      · rw [keepLastDot_count]
      · omega
  · -- only digits and periods in the output
    intro x c hc
    unfold _to_decimalish at hc
    split at hc
    · simp at hc
    · unfold decFinal at hc
      split at hc
      · rcases keepLastDot_chars hc with hin | hdot
        · exact by simpa using (List.mem_filter.mp hin).2
        · exact Or.inr hdot
      · exact by simpa using (List.mem_filter.mp hc).2
  · -- intish output is all digits
    intro x c hc
    exact (List.mem_filter.mp hc).2
  · -- the kept period is the last one
    intro x a b hs hb
    have hxe : x ≠ [] := by
      intro h
      subst h
      simp [decSpaceless, decSeparators, decKeep] at hs
    unfold _to_decimalish
    rw [if_neg hxe, hs]
    unfold decFinal
    split
    case isTrue h1 => exact keepLastDot_last a b hb
    case isFalse h1 =>
      have hcb : b.count '.' = 0 := List.count_eq_zero.mpr hb
      rw [List.count_append, List.count_cons_self, hcb] at h1
      have hca : a.count '.' = 0 := by omega
      have hfa : a.filter (fun c => !(c == '.')) = a := by
        apply List.filter_eq_self.mpr
        intro c hc
        have hne : c ≠ '.' := fun h => (List.count_eq_zero.mp hca) (h ▸ hc)
        simpa using hne
      rw [hfa]

/-- Witness for C4: the comma-removal clause applied at a concrete input
that contains both separators. -/
theorem c4_numeric_normalizers_witness :
    _to_decimalish (cs "1,2.3") =
      _to_decimalish ((cs "1,2.3").filter (fun c => !(c == ','))) :=
  c4_numeric_normalizers.2.1 (cs "1,2.3") (by decide) (by decide)

/-- C9. The Text Cleaner is idempotent: for every string `x`,
`clean (clean x) = clean x`, where `clean` replaces every run of
whitespace (including newlines) with a single space and trims leading and
trailing whitespace. -/
theorem c9_clean_idempotent : ∀ x : Str, clean (clean x) = clean x := by
  intro x
  show collapseWs false (pyStrip (clean x)) = clean x
  rw [pyStrip_clean]
  exact collapseWs_collapseWs (pyStrip x) false


/-!
Section: C5, C10, C6: free-text extractor claims
-/

set_option maxRecDepth 10000 in
set_option maxHeartbeats 4000000 in
/-- C5. On the body text "Jane Doe, Board member, has on 4 February
2026 bought 524 shares at a share price of NOK 288.25." the Free-Text
Extractor returns exactly one record with insider name "Jane Doe", role
"Board member", direction BUY, shares "524", price "NOK 288.25", and
trade date "4 February 2026". -/
theorem c5_free_text_vector :
    extract_trades_from_text (cs "Jane Doe, Board member, has on 4 February 2026 bought 524 shares at a share price of NOK 288.25.") =
      [{ insiderName := cs "Jane Doe", role := cs "Board member",
         transaction := cs "BUY", shares := cs "524",
         price := cs "NOK 288.25", tradeDate := cs "4 February 2026" }] := by
  decide

/-- C10. Every TradeRecord produced by the Free-Text Extractor has
direction BUY or SELL, never UNKNOWN or empty: each sentence match maps
its verb to BUY (bought/purchased/acquired) or SELL (anything else the
verb alternation can produce, i.e. sold), and the aggregate-fallback
record always has direction BUY. -/
theorem c10_free_text_direction :
    ∀ (t : Str) (r : Rec), r ∈ extract_trades_from_text t →
      r.transaction = cs "BUY" ∨ r.transaction = cs "SELL" := by
  intro t r hr
  simp only [extract_trades_from_text] at hr
  split at hr
  · obtain ⟨m, _, rfl⟩ := List.mem_map.mp hr
    simp only [mkSentenceRec]
    split
    · exact Or.inl rfl
    · exact Or.inr rfl
  · split at hr
    · rcases List.mem_singleton.mp hr with rfl
      exact Or.inl rfl
    · simp at hr

set_option maxRecDepth 10000 in
set_option maxHeartbeats 4000000 in
/-- Witness for C10 at a concrete selling sentence. -/
theorem c10_free_text_direction_witness :
    ({ insiderName := cs "Al Bo", role := cs "CEO guy",
       transaction := cs "SELL", shares := cs "5" } : Rec).transaction =
        cs "BUY" ∨
      ({ insiderName := cs "Al Bo", role := cs "CEO guy",
         transaction := cs "SELL", shares := cs "5" } : Rec).transaction =
        cs "SELL" :=
  c10_free_text_direction (cs "Al Bo, CEO guy, sold 5 shares.") _ (by decide)

/-- Modelled from the spec: the claimed additional global search for a
standalone "share price of <CCY> <amount>" occurrence anywhere in the
body, and the shared fallback price "CCY amount" it would supply.  No
counterpart exists in the source (`extract_trades_from_text` performs
only the per-match search); this definition follows §4.4 of the spec. -/
def specSharePricePat : RE := reSeq [litCI "share", wsP, litCI "price",
  wsP, litCI "of", wsP, RE.grp 1 (RE.rep Char.isAlpha 3 (some 3) false),
  wsS,
  RE.grp 2 (reSeq [RE.rep Char.isDigit 1 none false,
    RE.opt (reSeq [RE.cls dotCommaCls, RE.rep Char.isDigit 1 none false])
      false])]

/-- Modelled from the spec: the shared fallback price for a body text, per
§4.4's "one additional global search". -/
def specSharedFallbackPrice (body : Str) : Option Str :=
  (reSearch specSharePricePat (clean body)).map (fun m =>
    ((groupStr (clean body) m.2.2 1).map upperC) ++
      ' ' :: _to_decimalish (groupStr (clean body) m.2.2 2))

set_option maxRecDepth 10000 in
set_option maxHeartbeats 4000000 in
/-- C6 counterexample. On this body text the extractor finds exactly
one sentence match, which carries no price, while a standalone
"share price of NOK 5.5" occurrence exists in the body; the claimed
fallback would give the record price "NOK 5.5", but the code leaves the
price empty — no global fallback search exists in
`extract_trades_from_text`. -/
theorem c6_shared_fallback_counterexample :
    extract_trades_from_text (cs "A share price of NOK 5.5 was noted. Jane Doe, Board member, bought 100 shares.") =
        [{ insiderName := cs "was noted. Jane Doe",
           role := cs "Board member", transaction := cs "BUY",
           shares := cs "100" }] ∧
      specSharedFallbackPrice (cs "A share price of NOK 5.5 was noted. Jane Doe, Board member, bought 100 shares.") =
        some (cs "NOK 5.5") := by
  constructor
  · decide
  · decide

/-- C6 amended. When the sentence pattern yields at least one match,
the extractor returns exactly the per-match records unchanged: no
additional global search for a standalone share price is performed, and
a match lacking an in-match price keeps an empty price field. -/
theorem c6_amended_no_fallback :
    ∀ t : Str,
      (finditer freeTextPat (clean t)).map (mkSentenceRec (clean t)) ≠ [] →
      extract_trades_from_text t =
        (finditer freeTextPat (clean t)).map (mkSentenceRec (clean t)) := by
  intro t h
  simp only [extract_trades_from_text]
  rw [if_pos h]

set_option maxRecDepth 10000 in
set_option maxHeartbeats 4000000 in
/-- Witness for the amended C6 at the counterexample body text. -/
theorem c6_amended_no_fallback_witness :
    extract_trades_from_text (cs "A share price of NOK 5.5 was noted. Jane Doe, Board member, bought 100 shares.") =
      (finditer freeTextPat
        (clean (cs "A share price of NOK 5.5 was noted. Jane Doe, Board member, bought 100 shares."))).map
        (mkSentenceRec
          (clean (cs "A share price of NOK 5.5 was noted. Jane Doe, Board member, bought 100 shares."))) :=
  c6_amended_no_fallback _ (by decide)

/-!
Section: C7 — structured-form extractor invariants
-/

theorem mem_dedupRecsAux :
    ∀ (seen : List (Str × Str × Str × Str × Str × Str × Str))
      (l : List Rec) (r : Rec), r ∈ dedupRecsAux seen l → r ∈ l := by
  intro seen l
  induction l generalizing seen with
  | nil => intro r h; simp [dedupRecsAux] at h
  | cons a l ih =>
    intro r h
    unfold dedupRecsAux at h
    split at h
    · exact List.mem_cons_of_mem a (ih _ r h)
    · rcases List.mem_cons.mp h with rfl | hmem
      · exact List.mem_cons_self ..
      · exact List.mem_cons_of_mem a (ih _ r hmem)

theorem txn_from_nature_cases (n : Str) :
    _txn_from_nature n = cs "BUY" ∨ _txn_from_nature n = cs "SELL" ∨
      _txn_from_nature n = [] := by
  simp only [_txn_from_nature]
  split
  · exact Or.inl rfl
  · split
    · exact Or.inr (Or.inl rfl)
    · exact Or.inr (Or.inr rfl)

theorem intish_digits {x : Str} : ∀ c ∈ _to_intish x, c.isDigit = true :=
  fun _ hc => (List.mem_filter.mp hc).2

theorem marChunkVals_txn (ch : Str) :
    (marChunkVals ch).txn = cs "BUY" ∨ (marChunkVals ch).txn = cs "SELL" ∨
      (marChunkVals ch).txn = [] := by
  simp only [marChunkVals]
  split <;> exact txn_from_nature_cases _

theorem marChunkVals_vol_digits (ch : Str) :
    ∀ c ∈ (marChunkVals ch).vol, c.isDigit = true := by
  intro c hc
  simp only [marChunkVals] at hc
  split at hc
  case isTrue h0 =>
    split at hc
    · exact intish_digits c hc
    · split at hc
      · split at hc
        · rw [h0] at hc; simp at hc
        · exact intish_digits c hc
      · rw [h0] at hc; simp at hc
  case isFalse h0 =>
    split at hc
    · exact intish_digits c hc
    · simp at hc

/-- Inversion for the structured-form extractor: every returned record is
`mkMarRec name role issuer ch` for some chunk passing the guard. -/
theorem parse_mar_pdf_text_inv {t : Str} {r : Rec}
    (h : r ∈ parse_mar_pdf_text t) :
    ∃ name role issuer ch, marGuard name role ch = true ∧
      r = mkMarRec name role issuer ch := by
  unfold parse_mar_pdf_text at h
  split at h
  · simp at h
  · obtain ⟨b, _, hb⟩ := List.mem_flatMap.mp (mem_dedupRecsAux _ _ _ h)
    simp only [marBlockRecords] at hb
    split at hb
    · simp at hb
    · obtain ⟨ch, _, hch⟩ := List.mem_flatMap.mp hb
      unfold marChunkRecords at hch
      split at hch
      · exact ⟨_, _, _, ch, by assumption, List.mem_singleton.mp hch⟩
      · simp at hch

set_option maxRecDepth 10000 in
set_option maxHeartbeats 4000000 in
/-- C7 counterexample.  On the attachment text
"Volume weighted average price 5.0" the extractor's guard passes (the
parsed VWAP price magnitude is non-empty) but, there being no currency,
the contributed record has empty name, role, transaction, shares, price,
trade-date and value fields — contradicting "contributes a record only if
at least one of name, role, direction, shares, price, date, or total
value is non-empty" read on the record's fields. -/
theorem c7_structured_guard_counterexample :
    parse_mar_pdf_text (cs "Volume weighted average price 5.0") =
      [{ insiderName := [], role := [], transaction := [], shares := [],
         price := [], value := [], ownershipAfter := [], tradeDate := [],
         issuerFromPdf := [] }] := by
  decide

/-- C7 amended.  Every record of the Structured-Form Extractor has
direction BUY, SELL or empty (the code's encoding of UNKNOWN) and a
digits-only shares field; and every record arises from a transaction
chunk passing the source's guard — at least one of the parsed name, role,
direction, volume, price magnitude, date, or total value is non-empty
(the price magnitude need not survive into the record's price field when
no currency is found, so the record itself can be entirely empty). -/
theorem c7_amended_structured_invariants :
    ∀ (t : Str) (r : Rec), r ∈ parse_mar_pdf_text t →
      (r.transaction = cs "BUY" ∨ r.transaction = cs "SELL" ∨
        r.transaction = []) ∧
      (∀ c ∈ r.shares, c.isDigit = true) ∧
      (∃ name role issuer ch, marGuard name role ch = true ∧
        r = mkMarRec name role issuer ch) := by
  intro t r h
  obtain ⟨name, role, issuer, ch, hg, rfl⟩ := parse_mar_pdf_text_inv h
  refine ⟨?_, ?_, name, role, issuer, ch, hg, rfl⟩
  · simp only [mkMarRec]
    exact marChunkVals_txn ch
  · intro c hc
    simp only [mkMarRec] at hc
    exact marChunkVals_vol_digits ch c hc

set_option maxRecDepth 10000 in
set_option maxHeartbeats 4000000 in
/-- Witness for the amended C7: the invariants at the record produced from
the attachment text "Name Eve". -/
theorem c7_amended_structured_invariants_witness :
    ((⟨cs "Eve", [], [], [], [], [], [], [], []⟩ : Rec).transaction =
        cs "BUY" ∨
      (⟨cs "Eve", [], [], [], [], [], [], [], []⟩ : Rec).transaction =
        cs "SELL" ∨
      (⟨cs "Eve", [], [], [], [], [], [], [], []⟩ : Rec).transaction = []) ∧
    (∀ c ∈ (⟨cs "Eve", [], [], [], [], [], [], [], []⟩ : Rec).shares,
      c.isDigit = true) ∧
    (∃ name role issuer ch, marGuard name role ch = true ∧
      (⟨cs "Eve", [], [], [], [], [], [], [], []⟩ : Rec) =
        mkMarRec name role issuer ch) :=
  c7_amended_structured_invariants (cs "Name Eve") _ (by decide)

/-!
Section: C3 — orchestrator policy
-/

theorem orchGo_cons (fetch : Str → FetchOutcome) (body u : Str)
    (us : List Str) :
    orchGo fetch body (u :: us) =
      match fetch u with
      | .fail => orchGo fetch body us
      | .text s =>
        if s = [] then orchGo fetch body us
        else if parse_mar_pdf_text s = [] then orchGo fetch body us
        else parse_mar_pdf_text s := by
  conv_lhs => unfold orchGo

theorem orchGo_step_nothing (fetch : Str → FetchOutcome) (body : Str)
    {v : Str} (us : List Str) (h : attachmentYield fetch v = []) :
    orchGo fetch body (v :: us) = orchGo fetch body us := by
  unfold attachmentYield at h
  rw [orchGo_cons]
  cases hfv : fetch v with
  | fail => rfl
  | text s =>
    rw [hfv] at h
    have h2 : (if s = [] then ([] : List Rec) else parse_mar_pdf_text s) =
        [] := h
    by_cases hs : s = []
    · show (if s = [] then orchGo fetch body us
            else if parse_mar_pdf_text s = [] then orchGo fetch body us
            else parse_mar_pdf_text s) = orchGo fetch body us
      rw [if_pos hs]
    · rw [if_neg hs] at h2
      show (if s = [] then orchGo fetch body us
            else if parse_mar_pdf_text s = [] then orchGo fetch body us
            else parse_mar_pdf_text s) = orchGo fetch body us
      rw [if_neg hs, if_pos h2]

theorem orchGo_step_yield (fetch : Str → FetchOutcome) (body : Str)
    {u : Str} (us : List Str) (h : attachmentYield fetch u ≠ []) :
    orchGo fetch body (u :: us) = attachmentYield fetch u := by
  unfold attachmentYield at h ⊢
  rw [orchGo_cons]
  cases hfu : fetch u with
  | fail => rw [hfu] at h; exact absurd rfl h
  | text s =>
    rw [hfu] at h
    have h2 : (if s = [] then ([] : List Rec) else parse_mar_pdf_text s) ≠
        [] := h
    by_cases hs : s = []
    · rw [if_pos hs] at h2; exact absurd rfl h2
    · rw [if_neg hs] at h2
      show (if s = [] then orchGo fetch body us
            else if parse_mar_pdf_text s = [] then orchGo fetch body us
            else parse_mar_pdf_text s) =
        if s = [] then [] else parse_mar_pdf_text s
      rw [if_neg hs, if_neg h2, if_neg hs]

theorem orchGo_all_nothing (fetch : Str → FetchOutcome) (body : Str) :
    ∀ us : List Str, (∀ u ∈ us, attachmentYield fetch u = []) →
      orchGo fetch body us = extract_trades_from_text body := by
  intro us
  induction us with
  | nil => intro _; rfl
  | cons u rest ih =>
    intro h
    rw [orchGo_step_nothing fetch body rest (h u (List.mem_cons_self ..))]
    exact ih (fun v hv => h v (List.mem_cons_of_mem u hv))

/-- C3.  The orchestrator tries at most the first 3 attachment locators in
order; it returns the Structured-Form Extractor's output for the first
attachment that yields at least one record; a failed, empty or
record-less attachment is treated as yielding nothing without aborting
the document; and when no attachment yields a record (including zero
attachments) it returns the Free-Text Extractor's result on the body
text.  All functions involved are total, so the orchestrator never
raises. -/
theorem c3_orchestrator_policy :
    (∀ (fetch : Str → FetchOutcome) (meta : Meta),
      extract_trades_prefer_pdf_then_fallback fetch meta =
        extract_trades_prefer_pdf_then_fallback fetch
          { meta with pdf_urls := meta.pdf_urls.take 3 }) ∧
    (∀ (fetch : Str → FetchOutcome) (meta : Meta),
      (∀ u ∈ meta.pdf_urls.take 3, attachmentYield fetch u = []) →
      extract_trades_prefer_pdf_then_fallback fetch meta =
        extract_trades_from_text meta.body_text) ∧
    (∀ (fetch : Str → FetchOutcome) (meta : Meta) (pre post : List Str)
      (u : Str),
      meta.pdf_urls.take 3 = pre ++ u :: post →
      (∀ v ∈ pre, attachmentYield fetch v = []) →
      attachmentYield fetch u ≠ [] →
      extract_trades_prefer_pdf_then_fallback fetch meta =
        attachmentYield fetch u) := by
  refine ⟨?_, ?_, ?_⟩
  · intro fetch meta
    simp [extract_trades_prefer_pdf_then_fallback, List.take_take]
  · intro fetch meta h
    unfold extract_trades_prefer_pdf_then_fallback
    exact orchGo_all_nothing fetch meta.body_text _ h
  · intro fetch meta pre post u hsplit hpre hu
    unfold extract_trades_prefer_pdf_then_fallback
    rw [hsplit]
    clear hsplit
    induction pre with
    | nil => exact orchGo_step_yield fetch meta.body_text post hu
    | cons v pre ih =>
      rw [List.cons_append,
        orchGo_step_nothing fetch meta.body_text _
          (hpre v (List.mem_cons_self ..))]
      exact ih (fun w hw => hpre w (List.mem_cons_of_mem v hw))

set_option maxRecDepth 10000 in
set_option maxHeartbeats 4000000 in
/-- Witness for C3: with the first attachment failing and the second
converting to the text "Name Bob", the orchestrator returns the
structured extractor's output for the second attachment. -/
theorem c3_orchestrator_policy_witness :
    extract_trades_prefer_pdf_then_fallback
        (fun u => if u = cs "a" then FetchOutcome.fail
                  else FetchOutcome.text (cs "Name Bob"))
        { body_text := [], pdf_urls := [cs "a", cs "b"] } =
      attachmentYield
        (fun u => if u = cs "a" then FetchOutcome.fail
                  else FetchOutcome.text (cs "Name Bob"))
        (cs "b") :=
  c3_orchestrator_policy.2.2 _ _ [cs "a"] [] (cs "b") (by decide)
    (by decide) (by decide)

/-!
Section: C1, C2 — the merge loop
-/

theorem mkUid_ne_nil (link : Str) (i : Nat) : mkUid link i ≠ [] := by
  simp [mkUid]

theorem isPrefixOf_mkUid (link : Str) (i : Nat) :
    (link ++ ['|']).isPrefixOf (mkUid link i) = true := by
  rw [List.isPrefixOf_iff_prefix]
  exact ⟨Nat.toDigits 10 i, by simp [mkUid, natStr]⟩

theorem prefixSkip_of_mem {ids : List Str} {link uid : Str}
    (hm : uid ∈ ids) (hp : (link ++ ['|']).isPrefixOf uid = true) :
    prefixSkip ids link = true :=
  List.any_eq_true.mpr ⟨uid, hm, hp⟩

theorem prefixSkip_mono {ids ids' : List Str} {link : Str}
    (hsub : ∀ u ∈ ids, u ∈ ids') (h : prefixSkip ids link = true) :
    prefixSkip ids' link = true := by
  obtain ⟨u, hu, hp⟩ := List.any_eq_true.mp h
  exact List.any_eq_true.mpr ⟨u, hsub u hu, hp⟩

/-- Every row a candidate contributes carries a `Unique_ID` that extends
`link + "|"` and is non-empty. -/
theorem candNewRows_uid {ids osebx : List Str} {fetch : Str → FetchOutcome}
    {c : Cand} {row : Row} (h : row ∈ candNewRows ids osebx fetch c) :
    (c.link ++ ['|']).isPrefixOf row.uid = true ∧ row.uid ≠ [] := by
  simp only [candNewRows] at h
  split at h
  · simp at h
  · split at h
    · simp at h
    · split at h
      · split at h
        · simp at h
        · rcases List.mem_singleton.mp h with rfl
          exact ⟨isPrefixOf_mkUid _ _, mkUid_ne_nil _ _⟩
      · have h1 := (List.mem_filter.mp h).1
        obtain ⟨it, _, rfl⟩ := List.mem_map.mp h1
        exact ⟨isPrefixOf_mkUid _ _, mkUid_ne_nil _ _⟩

/-- A candidate that passes both skip checks contributes at least one
row. -/
theorem candNewRows_ne_nil {ids osebx : List Str}
    {fetch : Str → FetchOutcome} {c : Cand}
    (h1 : prefixSkip ids c.link = false)
    (h2 : osebxSkip osebx (candTicker c) = false) :
    candNewRows ids osebx fetch c ≠ [] := by
  have hnotin : ∀ i : Nat, mkUid c.link i ∉ ids := by
    intro i hmem
    rw [prefixSkip_of_mem hmem (isPrefixOf_mkUid c.link i)] at h1
    cases h1
  simp only [candNewRows]
  rw [if_neg (by simp [h1]), if_neg (by simp [h2])]
  split
  · rw [if_neg (by
      show ¬ (mkSignalRow c.link _ _ _ _ c.topic c.signal_type c.title).uid
          ∈ ids
      exact hnotin 0)]
    simp
  case isFalse htr =>
    rw [List.filter_eq_self.mpr ?_]
    · intro hnil
      rw [List.map_eq_nil_iff] at hnil
      have hlen := congrArg List.length hnil
      simp only [List.enum_length, List.length_nil] at hlen
      exact htr (List.length_eq_zero.mp hlen)
    · intro row hrow
      obtain ⟨it, _, rfl⟩ := List.mem_map.mp hrow
      simpa using hnotin (it.1 + 1)

/-- C2.  A candidate that is not skipped and whose trade extraction yields
zero records contributes exactly one signal-only placeholder row: its
identity is `link + "|0"` and its name, role, transaction, shares, price,
value, ownership and trade-date fields are all empty.  The statement
quantifies over every metadata outcome, including the `none` outcome that
models a metadata-parsing exception, and every fetch behaviour: no
document failure is fatal. -/
theorem c2_signal_only_placeholder :
    ∀ (ids osebx : List Str) (fetch : Str → FetchOutcome) (c : Cand),
      prefixSkip ids c.link = false →
      osebxSkip osebx (candTicker c) = false →
      extract_trades_prefer_pdf_then_fallback fetch
          (c.metaOutcome.getD emptyMeta) = [] →
      ∃ row : Row, candNewRows ids osebx fetch c = [row] ∧
        row.uid = c.link ++ cs "|0" ∧
        row.insiderName = [] ∧ row.role = [] ∧ row.transaction = [] ∧
        row.shares = [] ∧ row.price = [] ∧ row.value = [] ∧
        row.ownershipAfter = [] ∧ row.tradeDate = [] := by
  intro ids osebx fetch c h1 h2 h3
  refine ⟨mkSignalRow c.link
      (pyOr (c.metaOutcome.getD emptyMeta).date_filed c.released)
      (candTicker c)
      (pyOr (c.metaOutcome.getD emptyMeta).issuer c.company)
      (pyOr (c.metaOutcome.getD emptyMeta).market (cs "EURONEXT/OSLO"))
      c.topic c.signal_type c.title, ?_, rfl, rfl, rfl, rfl, rfl, rfl,
      rfl, rfl, rfl⟩
  simp only [candNewRows]
  rw [if_neg (by simp [h1]), if_neg (by simp [h2]), if_pos h3,
    if_neg (by
      show ¬ (mkSignalRow c.link _ _ _ _ c.topic c.signal_type
        c.title).uid ∈ ids
      intro hmem
      rw [prefixSkip_of_mem hmem (isPrefixOf_mkUid c.link 0)] at h1
      cases h1)]

/-- Witness for C2 at a candidate whose metadata parsing raised and whose
(nonexistent) attachments and empty body yield no trades. -/
theorem c2_signal_only_placeholder_witness :
    ∃ row : Row,
      candNewRows [] [] (fun _ => FetchOutcome.fail)
          { link := cs "d", topic := cs "t" } = [row] ∧
        row.uid = cs "d" ++ cs "|0" ∧
        row.insiderName = [] ∧ row.role = [] ∧ row.transaction = [] ∧
        row.shares = [] ∧ row.price = [] ∧ row.value = [] ∧
        row.ownershipAfter = [] ∧ row.tradeDate = [] :=
  c2_signal_only_placeholder [] [] (fun _ => FetchOutcome.fail)
    { link := cs "d", topic := cs "t" } (by decide) (by decide) (by decide)

theorem idsOf_append (a b : List Row) :
    idsOf (a ++ b) = idsOf a ++ idsOf b := by
  simp [idsOf, List.filter_append]

theorem mem_idsOf {rows : List Row} {row : Row} (hm : row ∈ rows)
    (hne : row.uid ≠ []) : row.uid ∈ idsOf rows :=
  List.mem_filter.mpr ⟨List.mem_map_of_mem _ hm, by simpa using hne⟩

/-- The allow-list filter silences a candidate regardless of the id
set. -/
theorem candNewRows_osebx_skip {ids osebx : List Str}
    {fetch : Str → FetchOutcome} {c : Cand}
    (h2 : osebxSkip osebx (candTicker c) = true) :
    candNewRows ids osebx fetch c = [] := by
  simp only [candNewRows]
  split <;> rfl

/-- The locator-prefix check silences a candidate. -/
theorem candNewRows_prefix_skip {ids osebx : List Str}
    {fetch : Str → FetchOutcome} {c : Cand}
    (h1 : prefixSkip ids c.link = true) :
    candNewRows ids osebx fetch c = [] := by
  simp only [candNewRows]
  rw [if_pos (by simp [h1])]

/-- A second run over the same candidates produces no new rows. -/
theorem mainNewRows_idem (osebx : List Str) (fetch : Str → FetchOutcome)
    (existing : List Row) (cands : List Cand) :
    mainNewRows (idsOf (mainRun osebx fetch existing cands)) osebx fetch
      cands = [] := by
  apply List.flatMap_eq_nil_iff.mpr
  intro c hc
  by_cases ho : osebxSkip osebx (candTicker c) = true
  · exact candNewRows_osebx_skip ho
  · by_cases hp : prefixSkip (idsOf existing) c.link = true
    · apply candNewRows_prefix_skip
      apply prefixSkip_mono ?_ hp
      intro u hu
      rw [mainRun, idsOf_append]
      exact List.mem_append_left _ hu
    · have hp' : prefixSkip (idsOf existing) c.link = false := by
        simpa using hp
      have ho' : osebxSkip osebx (candTicker c) = false := by simpa using ho
      have hne := @candNewRows_ne_nil (idsOf existing) osebx fetch c hp' ho'
      obtain ⟨row, hrow⟩ := List.exists_mem_of_ne_nil _ hne
      obtain ⟨hpre, hune⟩ := candNewRows_uid hrow
      have hmemN : row ∈ mainNewRows (idsOf existing) osebx fetch cands :=
        List.mem_flatMap.mpr ⟨c, hc, hrow⟩
      have hid : row.uid ∈ idsOf (mainRun osebx fetch existing cands) := by
        rw [mainRun, idsOf_append]
        exact List.mem_append_right _ (mem_idsOf hmemN hune)
      exact candNewRows_prefix_skip (prefixSkip_of_mem hid hpre)

/-- C1.  Merging is idempotent: with the persisted table and candidate
list unchanged, a second run of the merge adds zero rows; the total
persisted row count is non-decreasing across a run; and when the table
already holds a row with identity `docX|1`, the candidate with locator
`docX` is skipped by the locator-prefix check before any parsing (no
extraction is attempted) and contributes no row — in particular no second
`docX|1`. -/
theorem c1_merge_idempotent :
    ∀ (osebx : List Str) (fetch : Str → FetchOutcome) (existing : List Row)
      (cands : List Cand),
      mainRun osebx fetch (mainRun osebx fetch existing cands) cands =
        mainRun osebx fetch existing cands ∧
      existing.length ≤ (mainRun osebx fetch existing cands).length ∧
      (∀ c ∈ cands, ∀ r ∈ existing, r.uid = c.link ++ cs "|1" →
        candAttempted (idsOf existing) c = false ∧
        candNewRows (idsOf existing) osebx fetch c = []) := by
  intro osebx fetch existing cands
  refine ⟨?_, ?_, ?_⟩
  · conv_lhs => rw [mainRun]
    rw [mainNewRows_idem, List.append_nil]
  · rw [mainRun, List.length_append]
    omega
  · intro c _ r hr hud
    have hune : r.uid ≠ [] := by
      rw [hud]
      intro hcontra
      exact absurd (List.append_eq_nil.mp hcontra).2 (by decide)
    have hid : r.uid ∈ idsOf existing := mem_idsOf hr hune
    have hp : prefixSkip (idsOf existing) c.link = true := by
      apply prefixSkip_of_mem hid
      rw [hud, List.isPrefixOf_iff_prefix]
      refine ⟨['1'], ?_⟩
      rw [List.append_assoc]
      congr 1
    exact ⟨by simp [candAttempted, hp], candNewRows_prefix_skip hp⟩

/-- Witness for C1: with `docX|1` persisted, the `docX` candidate is not
attempted and adds nothing. -/
theorem c1_merge_idempotent_witness :
    candAttempted (idsOf [{ uid := cs "docX|1" }])
        { link := cs "docX" } = false ∧
      candNewRows (idsOf [{ uid := cs "docX|1" }]) []
        (fun _ => FetchOutcome.fail) { link := cs "docX" } = [] :=
  (c1_merge_idempotent [] (fun _ => FetchOutcome.fail)
      [{ uid := cs "docX|1" }] [{ link := cs "docX" }]).2.2
    { link := cs "docX" } (by decide) { uid := cs "docX|1" } (by decide)
    (by decide)

/-!
Section: C8 — attachment locator collection
-/

theorem dedupFirstAux_mem :
    ∀ (l seen : List Str) (u : Str),
      u ∈ dedupFirstAux seen l ↔ u ∈ l ∧ u ∉ seen := by
  intro l
  induction l with
  | nil => intro seen u; simp [dedupFirstAux]
  | cons a l ih =>
    intro seen u
    unfold dedupFirstAux
    split
    case isTrue h =>
      rw [ih]
      constructor
      · rintro ⟨h1, h2⟩
        exact ⟨List.mem_cons_of_mem a h1, h2⟩
      · rintro ⟨h1, h2⟩
        rcases List.mem_cons.mp h1 with rfl | h3
        · exact absurd h h2
        · exact ⟨h3, h2⟩
    case isFalse h =>
      constructor
      · intro hm
        rcases List.mem_cons.mp hm with rfl | h3
        · exact ⟨List.mem_cons_self .., h⟩
        · obtain ⟨h1, h2⟩ := (ih (a :: seen) u).mp h3
          exact ⟨List.mem_cons_of_mem a h1,
            fun hs => h2 (List.mem_cons_of_mem a hs)⟩
      · rintro ⟨h1, h2⟩
        rcases List.mem_cons.mp h1 with rfl | h3
        · exact List.mem_cons_self ..
        · by_cases hua : u = a
          · subst hua; exact List.mem_cons_self ..
          · refine List.mem_cons_of_mem a ((ih (a :: seen) u).mpr ⟨h3, ?_⟩)
            intro hs
            rcases List.mem_cons.mp hs with h4 | h5
            exacts [hua h4, h2 h5]

theorem dedupFirstAux_nodup :
    ∀ (l seen : List Str), (dedupFirstAux seen l).Nodup := by
  intro l
  induction l with
  | nil => intro seen; simp [dedupFirstAux]
  | cons a l ih =>
    intro seen
    unfold dedupFirstAux
    split
    · exact ih seen
    · refine List.nodup_cons.mpr ⟨?_, ih _⟩
      intro hmem
      exact ((dedupFirstAux_mem _ _ _).mp hmem).2 (List.mem_cons_self ..)

theorem dedupFirstAux_sublist :
    ∀ (l seen : List Str), (dedupFirstAux seen l).Sublist l := by
  intro l
  induction l with
  | nil => intro seen; simp [dedupFirstAux]
  | cons a l ih =>
    intro seen
    unfold dedupFirstAux
    split
    · exact (ih seen).cons a
    · exact (ih (a :: seen)).cons₂ a

/-- Modelled from the spec: the claim's collection rule keeps hyperlinks
whose target ENDS in the recognized document extension ".pdf"
(case-insensitively), resolved and de-duplicated the same way as the
source.  The source instead tests `".pdf" in href.lower()`
(containment). -/
def endsInPdf (href : Str) : Bool := (cs ".pdf").isSuffixOf (href.map lowerC)

/-- Modelled from the spec: attachment collection with the ends-with
rule. -/
def collectPdfUrlsSpec (hrefs : List Str) : List Str :=
  dedupFirst ((hrefs.filter endsInPdf).map norm_url)

/-- C8 counterexample.  The hyperlink target "/x.pdf.html" does not end in
".pdf", so per the claim it must not be collected; the source collects it
because `".pdf" in href.lower()` holds. -/
theorem c8_collection_counterexample :
    collectPdfUrls [cs "/x.pdf.html"] =
        [cs "https://live.euronext.com/x.pdf.html"] ∧
      collectPdfUrlsSpec [cs "/x.pdf.html"] = [] := by
  constructor
  · decide
  · decide

/-- C8 amended.  The collected attachment locators are exactly the
hyperlink targets that CONTAIN ".pdf" case-insensitively (not only those
ending in it), each resolved by `norm_url` (origin-prefixed only when the
target starts with "/"), with duplicates removed preserving first-seen
order: the result has no duplicates, its members are exactly the
normalised matching targets, and it is an order-preserving sublist of
them. -/
theorem c8_amended_collection :
    ∀ hrefs : List Str,
      (collectPdfUrls hrefs).Nodup ∧
      (∀ u, u ∈ collectPdfUrls hrefs ↔
        ∃ h ∈ hrefs, containsPdfCI h = true ∧ u = norm_url h) ∧
      (collectPdfUrls hrefs).Sublist
        ((hrefs.filter containsPdfCI).map norm_url) := by
  intro hrefs
  refine ⟨dedupFirstAux_nodup _ _, ?_, dedupFirstAux_sublist _ _⟩
  intro u
  unfold collectPdfUrls dedupFirst
  rw [dedupFirstAux_mem]
  constructor
  · rintro ⟨hmem, -⟩
    obtain ⟨h, hh, rfl⟩ := List.mem_map.mp hmem
    obtain ⟨hh1, hh2⟩ := List.mem_filter.mp hh
    exact ⟨h, hh1, hh2, rfl⟩
  · rintro ⟨h, hh1, hh2, rfl⟩
    exact ⟨List.mem_map_of_mem _ (List.mem_filter.mpr ⟨hh1, hh2⟩), by simp⟩

/-- Witness for the amended C8 at a one-link page. -/
theorem c8_amended_collection_witness :
    (collectPdfUrls [cs "/a.pdf"]).Nodup :=
  (c8_amended_collection [cs "/a.pdf"]).1
